import Mathlib

/-!
Verification development for the psiz trial bookkeeping and outcome
probability engine.

The Python sources are shallowly embedded:

* `psiz/trials.py` : `SimilarityTrials.__init__` (default handling, clamping,
  inference of `n_reference`, zero padding), `UnjudgedTrials` configuration
  resolution (`_generate_configuration_id` with pandas `drop_duplicates`,
  which keeps first occurrences), `subset`, `stack`, and the module level
  function `possible_outcomes`.
* `psiz/simulate.py` : `Agent.probability` (outcome enumeration per
  configuration, the reverse-order sequential Luce recursion, zero padding of
  the probability matrix and the final row normalization).
* `psiz/generator.py` : `RandomGenerator.generate`.

Machine integers become `ℤ` (or `ℕ` for indices and counts that the code
keeps non-negative), numpy float probabilities become `ℚ` so that the
algebraic identities of the recursion are exact, and numpy arrays become
lists.  The external embedding collaborator (`embedding.z` together with
`embedding.similarity` and the attention weights) is abstracted as a single
scoring function `sim : ℤ → ℤ → ℚ` from a (query, reference) pair of
stimulus indices to a similarity score, which is exactly how
`Agent.probability` consumes it.  Vectorized numpy statements are embedded
row by row: the per-configuration loops of `Agent.probability` write into
disjoint row sets of `prob_all`, and a trial's row only depends on the
trial's own configuration and stimuli, so the per-trial formulation computes
the same matrix.
-/

namespace Psiz

/-- One row of the configuration table of a trial container: the fields of
`trials.config_list` that `possible_outcomes` and `Agent.probability` read.
The code keeps these counts non-negative, so they are embedded as `ℕ`. -/
structure TrialConfiguration where
  n_reference : ℕ
  n_selected : ℕ
  is_ranked : Bool
deriving DecidableEq, Repr

/-- All permutations of length `k` drawn from the pool `l`, in the order
produced by Python's `itertools.permutations` on a duplicate-free pool:
for each pool element in pool order, that element followed by every
`(k-1)`-permutation of the remaining pool. -/
def kperms : ℕ → List ℕ → List (List ℕ)
  | 0, _ => [[]]
  | k + 1, l => l.flatMap (fun a => (kperms k (l.filter (fun x => x ≠ a))).map (fun p => a :: p))

/-- The `dummy_idx` loop of `possible_outcomes`: starting from
`np.arange(n_reference)`, drop each selected value in turn with a `!=`
mask. -/
def remove_selected (dummy_idx : List ℕ) (sel : List ℕ) : List ℕ :=
  sel.foldl (fun d v => d.filter (fun x => x ≠ v)) dummy_idx

/-- Embedding of `psiz.trials.possible_outcomes`: each outcome row is a
length-`n_selected` permutation of `range n_reference` followed by the
remaining reference indices in their original ascending order. -/
def possible_outcomes (c : TrialConfiguration) : List (List ℕ) :=
  let reference_list := List.range c.n_reference
  (kperms c.n_selected reference_list).map
    (fun sel => sel ++ remove_selected reference_list sel)

/-- Similarity of a query and one reference of a trial row:
`s_qref[t, i_ref] = similarity(z[stimulus_set[t, 0]], z[stimulus_set[t, 1 + i_ref]], w)`
with the embedding collaborator abstracted into `sim`. -/
def s_qref (sim : ℤ → ℤ → ℚ) (row : List ℤ) (i_ref : ℕ) : ℚ :=
  sim (row.getD 0 0) (row.getD (1 + i_ref) 0)

/-- The inner loop of `Agent.probability`: walk the selection positions from
`n_selected - 1` down to `0`, multiplying `prob` by
`s_perm[i_selected] / total` and then adding the similarity of the previous
selection to `total`. -/
def luce_rev (s_perm : List ℚ) : ℕ → ℚ → ℚ → ℚ
  | 0, total, prob => prob * (s_perm.getD 0 0 / total)
  | i + 1, total, prob =>
      luce_rev s_perm i (total + s_perm.getD i 0) (prob * (s_perm.getD (i + 1) 0 / total))

/-- Probability that `Agent.probability` computes for one outcome row of one
trial: permute the similarities by the outcome, start `total` at the sum of
the similarities from position `n_selected - 1` on, and run the reverse-order
sampling-without-replacement recursion. -/
def outcome_prob (s : ℕ → ℚ) (n_selected : ℕ) (outcome : List ℕ) : ℚ :=
  let s_perm := outcome.map s
  luce_rev s_perm (n_selected - 1) ((s_perm.drop (n_selected - 1)).sum) 1

/-- The part of a trial container that `Agent.probability` reads: the padded
stimulus matrix, the configuration table, and the per-trial configuration
index. -/
structure Docket where
  stimulus_set : List (List ℤ)
  config_list : List TrialConfiguration
  config_id : List ℕ

def default_config : TrialConfiguration := ⟨0, 0, true⟩

/-- `trials.config_list.iloc[trials.config_id[t]]`. -/
def trial_config (d : Docket) (t : ℕ) : TrialConfiguration :=
  d.config_list.getD (d.config_id.getD t 0) default_config

/-- `max_n_outcome` accumulated over the configuration loop of
`Agent.probability`. -/
def max_n_outcome (d : Docket) : ℕ :=
  (d.config_list.map (fun c => (possible_outcomes c).length)).foldr max 0

/-- Row `t` of `prob_all` before the final normalization: one probability per
enumerated outcome of the trial's configuration, zero padded up to the
maximum outcome count over all configurations present. -/
def trial_prob_raw (sim : ℤ → ℤ → ℚ) (d : Docket) (t : ℕ) : List ℚ :=
  let c := trial_config d t
  let outcome_idx := possible_outcomes c
  let row := d.stimulus_set.getD t []
  outcome_idx.map (outcome_prob (s_qref sim row) c.n_selected)
    ++ List.replicate (max_n_outcome d - outcome_idx.length) 0

/-- The final correction step of `Agent.probability`:
`prob_all / np.sum(prob_all, axis=1, keepdims=True)` acts row by row. -/
def normalize_row (p : List ℚ) : List ℚ := p.map (fun x => x / p.sum)

/-- Embedding of `Agent.probability` (the `prob_all` component): the
per-configuration vectorized loops write each trial's row exactly once, so
the matrix is assembled trial by trial. -/
def Agent.probability (sim : ℤ → ℤ → ℚ) (trials : Docket) : List (List ℚ) :=
  (List.range trials.stimulus_set.length).map
    (fun t => normalize_row (trial_prob_raw sim trials t))

/-- Closed form of the reverse recursion: the product over selection
positions of `s_perm[j]` divided by the sum of the not-yet-removed suffix. -/
def prod_form (s_perm : List ℚ) (k : ℕ) : ℚ :=
  ∏ j ∈ Finset.range k, s_perm.getD j 0 / (s_perm.drop j).sum

/-- `possible_outcomes` generalized to an arbitrary pool of reference slots,
used to run the probability-mass induction. -/
def outcomes_for (avail : List ℕ) (k : ℕ) : List (List ℕ) :=
  (kperms k avail).map (fun sel => sel ++ remove_selected avail sel)

/-- Effect of `n_selected[n_selected < 1] = 1` on the caller's array. -/
def clamp_n_selected (ns : List ℤ) : List ℤ :=
  ns.map (fun x => if x < 1 then 1 else x)

/-- Effect of `group_id[group_id < 0] = 0` on the caller's array. -/
def clamp_group_id (g : List ℤ) : List ℤ :=
  g.map (fun x => if x < 0 then 0 else x)

/-- Embedding of `SimilarityTrials._infer_n_reference`: column count minus
one, minus the number of strictly negative entries of the row. -/
def infer_n_reference (stimulus_set : List (List ℤ)) : List ℤ :=
  let max_ref : ℤ := ((stimulus_set.headD []).length : ℤ) - 1
  stimulus_set.map (fun row => max_ref - (row.countP (fun x => x < 0) : ℤ))

/-- `self.max_n_reference = 9` (hard coded in `SimilarityTrials.__init__`). -/
def max_n_reference : ℕ := 9

/-- The padding step of `SimilarityTrials.__init__`: hstack a zero matrix of
width `max_n_reference - stimulus_set.shape[1]` onto the stimulus set.  Note
the pad value is 0, not the sentinel -1. -/
def pad_stimulus_set (stimulus_set : List (List ℤ)) : List (List ℤ) :=
  let n_pad := max_n_reference - (stimulus_set.headD []).length
  stimulus_set.map (fun row => row ++ List.replicate n_pad 0)

/-- State established by `SimilarityTrials.__init__`.  The `n_selected`
field is the very numpy array the caller passed (the clamping writes happen
in place through `n_selected[bad_locs] = ...`), so it is simultaneously the
post-state of the caller's argument. -/
structure SimilarityTrialsState where
  stimulus_set : List (List ℤ)
  n_trial : ℕ
  n_reference : List ℤ
  n_selected : List ℤ
  is_ranked : List Bool
  warned_n_selected : Bool
deriving DecidableEq, Repr

/-- Embedding of `SimilarityTrials.__init__`.  The function is total: the
source performs no validation (no raise path exists in it). -/
def SimilarityTrials.init (stimulus_set : List (List ℤ)) (n_selected : Option (List ℤ))
    (is_ranked : Option (List Bool)) (n_reference : Option (List ℤ)) :
    SimilarityTrialsState :=
  let n_trial := stimulus_set.length
  let warned := match n_selected with
    | none => false
    | some ns => ns.any (fun x => x < 1)
  let ns := match n_selected with
    | none => List.replicate n_trial (1 : ℤ)
    | some ns => clamp_n_selected ns
  let ir := match is_ranked with
    | none => List.replicate n_trial true
    | some ir => ir
  let nr := match n_reference with
    | none => infer_n_reference stimulus_set
    | some nr => nr
  { stimulus_set := pad_stimulus_set stimulus_set
    n_trial := n_trial
    n_reference := nr
    n_selected := ns
    is_ranked := ir
    warned_n_selected := warned }

/-- Deduplication keeping first occurrences, as pandas
`DataFrame.drop_duplicates` does in `_generate_configuration_id`: scan the
rows in order and append each row not seen before. -/
def first_dedup {α : Type} [DecidableEq α] (l : List α) : List α :=
  l.foldl (fun acc x => if x ∈ acc then acc else acc ++ [x]) []

/-- Embedding of `_generate_configuration_id`: the configuration table is the
deduplicated attribute list in first-occurrence order, and every trial is
assigned the row index of its (unique) matching table entry. -/
def generate_configuration_id {α : Type} [DecidableEq α] (trial_attrs : List α) :
    List α × List ℕ :=
  let df_config := first_dedup trial_attrs
  (df_config, trial_attrs.map (fun m => df_config.indexOf m))

/-- The per-trial attribute tuples deduplicated by `UnjudgedTrials`:
`(n_reference, n_selected, is_ranked)`. -/
def config_meta (n_reference n_selected : List ℤ) (is_ranked : List Bool) :
    List (ℤ × ℤ × Bool) :=
  n_reference.zip (n_selected.zip is_ranked)

structure UnjudgedTrialsState where
  stimulus_set : List (List ℤ)
  n_trial : ℕ
  n_reference : List ℤ
  n_selected : List ℤ
  is_ranked : List Bool
  warned_n_selected : Bool
  config_list : List (ℤ × ℤ × Bool)
  config_id : List ℕ
deriving DecidableEq, Repr

/-- Embedding of `UnjudgedTrials.__init__`: the shared base initialization
followed by configuration resolution. -/
def UnjudgedTrials.init (stimulus_set : List (List ℤ)) (n_selected : Option (List ℤ))
    (is_ranked : Option (List Bool)) (n_reference : Option (List ℤ)) :
    UnjudgedTrialsState :=
  let s := SimilarityTrials.init stimulus_set n_selected is_ranked n_reference
  let cfg := generate_configuration_id (config_meta s.n_reference s.n_selected s.is_ranked)
  { stimulus_set := s.stimulus_set
    n_trial := s.n_trial
    n_reference := s.n_reference
    n_selected := s.n_selected
    is_ranked := s.is_ranked
    warned_n_selected := s.warned_n_selected
    config_list := cfg.1
    config_id := cfg.2 }

/-- Embedding of `UnjudgedTrials.subset`: rebuild from the already padded
rows and the stored metadata, passing no `n_reference`. -/
def UnjudgedTrials.subset (t : UnjudgedTrialsState) (index : List ℕ) : UnjudgedTrialsState :=
  UnjudgedTrials.init (index.map (fun i => t.stimulus_set.getD i []))
    (some (index.map (fun i => t.n_selected.getD i 0)))
    (some (index.map (fun i => t.is_ranked.getD i true)))
    none

/-- Embedding of `UnjudgedTrials.stack`: concatenate stimulus sets and
metadata in input order, then rebuild a container (which recomputes the
configuration table over the combined metadata). -/
def UnjudgedTrials.stack (trials_list : List UnjudgedTrialsState) : UnjudgedTrialsState :=
  match trials_list with
  | [] => UnjudgedTrials.init [] none none none
  | t0 :: rest =>
      let ss := rest.foldl (fun acc t => acc ++ t.stimulus_set) t0.stimulus_set
      let nr := rest.foldl (fun acc t => acc ++ t.n_reference) t0.n_reference
      let ns := rest.foldl (fun acc t => acc ++ t.n_selected) t0.n_selected
      let ir := rest.foldl (fun acc t => acc ++ t.is_ranked) t0.is_ranked
      UnjudgedTrials.init ss (some ns) (some ir) (some nr)

/-- A container is well formed when its metadata arrays are aligned, its
stored `n_selected` is already clamped, and its configuration table and
index are the ones `_generate_configuration_id` computes from its metadata.
Every container built by `UnjudgedTrials.init` satisfies this. -/
def UnjudgedTrialsState.wf (t : UnjudgedTrialsState) : Prop :=
  t.n_reference.length = t.n_selected.length ∧
  t.n_selected.length = t.is_ranked.length ∧
  (∀ x ∈ t.n_selected, 1 ≤ x) ∧
  t.config_list =
    (generate_configuration_id (config_meta t.n_reference t.n_selected t.is_ranked)).1 ∧
  t.config_id =
    (generate_configuration_id (config_meta t.n_reference t.n_selected t.is_ranked)).2

instance (t : UnjudgedTrialsState) : Decidable t.wf := by
  unfold UnjudgedTrialsState.wf
  infer_instance

/-- The per-trial attribute tuples deduplicated by `JudgedTrials`:
`(n_reference, n_selected, is_ranked, group_id, session_id)`. -/
def config_meta_judged (n_reference n_selected : List ℤ) (is_ranked : List Bool)
    (group_id session_id : List ℤ) : List (ℤ × ℤ × Bool × ℤ × ℤ) :=
  n_reference.zip (n_selected.zip (is_ranked.zip (group_id.zip session_id)))

structure JudgedTrialsState where
  stimulus_set : List (List ℤ)
  n_trial : ℕ
  n_reference : List ℤ
  n_selected : List ℤ
  is_ranked : List Bool
  warned_n_selected : Bool
  group_id : List ℤ
  warned_group_id : Bool
  config_list : List (ℤ × ℤ × Bool × ℤ × ℤ)
  config_id : List ℕ
deriving DecidableEq, Repr

/-- Embedding of `JudgedTrials.__init__`: base initialization, in-place
clamping of negative `group_id` entries to 0 with a warning, then
configuration resolution over the five-field tuples (with `session_id`
defaulting to zeros).  Like the base class, `group_id` aliases the caller's
array, so the field is also the argument's post-state. -/
def JudgedTrials.init (stimulus_set : List (List ℤ)) (n_selected : Option (List ℤ))
    (is_ranked : Option (List Bool)) (group_id : Option (List ℤ))
    (n_reference : Option (List ℤ)) : JudgedTrialsState :=
  let s := SimilarityTrials.init stimulus_set n_selected is_ranked n_reference
  let warned_g := match group_id with
    | none => false
    | some g => g.any (fun x => x < 0)
  let gid := match group_id with
    | none => List.replicate s.n_trial (0 : ℤ)
    | some g => clamp_group_id g
  let sid := List.replicate s.n_trial (0 : ℤ)
  let cfg := generate_configuration_id
    (config_meta_judged s.n_reference s.n_selected s.is_ranked gid sid)
  { stimulus_set := s.stimulus_set
    n_trial := s.n_trial
    n_reference := s.n_reference
    n_selected := s.n_selected
    is_ranked := s.is_ranked
    warned_n_selected := s.warned_n_selected
    group_id := gid
    warned_group_id := warned_g
    config_list := cfg.1
    config_id := cfg.2 }

/-- The stimulus matrix assembled by `RandomGenerator.generate` before the
container is constructed: row `i_trial` is
`np.random.choice(n_stimuli, (1, n_reference + 1), False)` with the
reference columns (columns 1 onward) then sorted ascending.  The random
draw is abstracted as `draw`; its contract (distinct in-range indices of
the right count) becomes hypotheses of the theorems. -/
def RandomGenerator.stimulus_matrix (n_trial : ℕ) (draw : ℕ → List ℤ) : List (List ℤ) :=
  (List.range n_trial).map (fun i_trial =>
    let row := draw i_trial
    row.headD 0 :: List.insertionSort (fun x y => x ≤ y) row.tail)

/-- Embedding of `RandomGenerator.generate`: build the stimulus matrix and
construct an `UnjudgedTrials` container with repeated `n_selected` and
`is_ranked`. -/
def RandomGenerator.generate (n_trial : ℕ) (n_selected : ℕ) (ranked : Bool)
    (draw : ℕ → List ℤ) : UnjudgedTrialsState :=
  UnjudgedTrials.init (RandomGenerator.stimulus_matrix n_trial draw)
    (some (List.replicate n_trial (n_selected : ℤ)))
    (some (List.replicate n_trial ranked))
    none

example : possible_outcomes ⟨2, 1, true⟩ = [[0, 1], [1, 0]] := by decide

example : possible_outcomes ⟨3, 2, true⟩ =
    [[0, 1, 2], [0, 2, 1], [1, 0, 2], [1, 2, 0], [2, 0, 1], [2, 1, 0]] := by decide

theorem remove_selected_nil (l : List ℕ) : remove_selected l [] = l := rfl

theorem remove_selected_cons (l : List ℕ) (a : ℕ) (sel : List ℕ) :
    remove_selected l (a :: sel) = remove_selected (l.filter (fun x => x ≠ a)) sel := rfl

theorem filter_ne_of_nodup {l : List ℕ} {a : ℕ} (hn : l.Nodup) (ha : a ∈ l) :
    l.filter (fun x => x ≠ a) = l.erase a := by
  rw [List.Nodup.erase_eq_filter hn]
  apply List.filter_congr
  intro x _
  rcases Decidable.eq_or_ne x a with h | h <;> simp [h]

theorem nodup_filter_ne {l : List ℕ} (hn : l.Nodup) (a : ℕ) :
    (l.filter (fun x => x ≠ a)).Nodup :=
  List.Nodup.filter _ hn

theorem length_filter_ne {l : List ℕ} {a : ℕ} (hn : l.Nodup) (ha : a ∈ l) :
    (l.filter (fun x => x ≠ a)).length = l.length - 1 := by
  rw [filter_ne_of_nodup hn ha]
  exact List.length_erase_of_mem ha

theorem perm_cons_filter_ne {l : List ℕ} {a : ℕ} (hn : l.Nodup) (ha : a ∈ l) :
    (a :: l.filter (fun x => x ≠ a)).Perm l := by
  rw [filter_ne_of_nodup hn ha]
  exact (List.perm_cons_erase ha).symm

theorem filter_ne_head {a : ℕ} {l' : List ℕ} (hn : (a :: l').Nodup) :
    (a :: l').filter (fun x => x ≠ a) = l' := by
  have h1 : ∀ b ∈ l', b ≠ a := fun b hb hba => (List.nodup_cons.mp hn).1 (hba ▸ hb)
  rw [List.filter_cons, if_neg (by simp), List.filter_eq_self]
  intro b hb
  simp [h1 b hb]

/-- Every element of `kperms k l` is a permutation of `l` once the removed
remainder is appended: the outcome row rearranges the whole pool. -/
theorem kperms_append_perm :
    ∀ (k : ℕ) (l : List ℕ), l.Nodup → ∀ sel ∈ kperms k l,
      (sel ++ remove_selected l sel).Perm l := by
  intro k
  induction k with
  | zero =>
    intro l _ sel hsel
    simp only [kperms, List.mem_singleton] at hsel
    subst hsel
    simp [remove_selected_nil]
  | succ k ih =>
    intro l hn sel hsel
    simp only [kperms, List.mem_flatMap, List.mem_map] at hsel
    obtain ⟨a, ha, p, hp, rfl⟩ := hsel
    rw [List.cons_append, remove_selected_cons]
    have hperm := ih (l.filter (fun x => x ≠ a)) (nodup_filter_ne hn a) p hp
    exact (hperm.cons a).trans (perm_cons_filter_ne hn ha)

theorem mem_of_mem_kperms :
    ∀ (k : ℕ) (l : List ℕ) (sel : List ℕ), sel ∈ kperms k l → ∀ x ∈ sel, x ∈ l := by
  intro k
  induction k with
  | zero =>
    intro l sel hsel
    simp only [kperms, List.mem_singleton] at hsel
    subst hsel
    intro x hx
    simp at hx
  | succ k ih =>
    intro l sel hsel x hx
    simp only [kperms, List.mem_flatMap, List.mem_map] at hsel
    obtain ⟨a, ha, p, hp, rfl⟩ := hsel
    rcases List.mem_cons.mp hx with h | h
    · exact h ▸ ha
    · exact List.mem_of_mem_filter (ih _ p hp x h)

theorem length_of_mem_kperms :
    ∀ (k : ℕ) (l : List ℕ) (sel : List ℕ), sel ∈ kperms k l → sel.length = k := by
  intro k
  induction k with
  | zero =>
    intro l sel hsel
    simp only [kperms, List.mem_singleton] at hsel
    subst hsel
    rfl
  | succ k ih =>
    intro l sel hsel
    simp only [kperms, List.mem_flatMap, List.mem_map] at hsel
    obtain ⟨a, _, p, hp, rfl⟩ := hsel
    simp [ih _ p hp]

/-- The number of `k`-permutations of a duplicate-free pool is the descending
factorial of the pool size. -/
theorem length_kperms :
    ∀ (k : ℕ) (l : List ℕ), l.Nodup → (kperms k l).length = l.length.descFactorial k := by
  intro k
  induction k with
  | zero => intro l _; simp [kperms]
  | succ k ih =>
    intro l hn
    rw [kperms, List.length_flatMap]
    have hmap : l.map (List.length ∘ fun a =>
        (kperms k (l.filter (fun x => x ≠ a))).map (fun p => a :: p)) =
        l.map (fun _ => (l.length - 1).descFactorial k) := by
      apply List.map_congr_left
      intro a ha
      simp only [Function.comp_apply, List.length_map]
      rw [ih _ (nodup_filter_ne hn a), length_filter_ne hn ha]
    rw [hmap]
    cases l with
    | nil => simp
    | cons x xs =>
      have : (x :: xs).map (fun _ => ((x :: xs).length - 1).descFactorial k) =
          List.replicate (x :: xs).length (xs.length.descFactorial k) := by
        simp [List.map_const', List.replicate_succ]
      rw [this, List.sum_replicate, smul_eq_mul, List.length_cons,
        Nat.succ_descFactorial_succ]

theorem descFactorial_pos {k n : ℕ} (h : k ≤ n) : 0 < n.descFactorial k := by
  induction k with
  | zero => simp
  | succ k ih =>
    rw [Nat.descFactorial_succ]
    exact Nat.mul_pos (Nat.sub_pos_of_lt h) (ih (Nat.le_of_succ_le h))

theorem kperms_ne_nil {k : ℕ} {l : List ℕ} (hn : l.Nodup) (hk : k ≤ l.length) :
    kperms k l ≠ [] := by
  intro hnil
  have := length_kperms k l hn
  rw [hnil] at this
  exact absurd this.symm (Nat.ne_of_gt (descFactorial_pos hk))

/-- The first `k`-permutation produced is the first `k` pool elements in pool
order (the identity selection). -/
theorem head?_kperms :
    ∀ (k : ℕ) (l : List ℕ), l.Nodup → k ≤ l.length →
      (kperms k l).head? = some (l.take k) := by
  intro k
  induction k with
  | zero => intro l _ _; simp [kperms]
  | succ k ih =>
    intro l hn hk
    cases l with
    | nil => simp at hk
    | cons a l' =>
      have hn' : l'.Nodup := (List.nodup_cons.mp hn).2
      have hk' : k ≤ l'.length := Nat.succ_le_succ_iff.mp hk
      rw [kperms, List.flatMap_cons, filter_ne_head hn]
      rw [List.head?_append_of_ne_nil]
      · rw [List.head?_map, ih l' hn' hk', Option.map_some']
        rfl
      · intro hmapnil
        exact kperms_ne_nil hn' hk' (List.map_eq_nil_iff.mp hmapnil)

/-- Removing a prefix of a duplicate-free list with the sequential `!=`
masks of `possible_outcomes` leaves exactly the rest of the list. -/
theorem remove_selected_take :
    ∀ (k : ℕ) (l : List ℕ), l.Nodup → remove_selected l (l.take k) = l.drop k := by
  intro k
  induction k with
  | zero => intro l _; simp [remove_selected_nil]
  | succ k ih =>
    intro l hn
    cases l with
    | nil => simp [remove_selected_nil]
    | cons a l' =>
      rw [List.take_succ_cons, remove_selected_cons, filter_ne_head hn,
        ih l' (List.nodup_cons.mp hn).2, List.drop_succ_cons]

/-- Doc comment for claim C3 appears on `claim_C3` below; this section holds
the supporting lemmas for the probability engine. -/
theorem possible_outcomes_length (c : TrialConfiguration) :
    (possible_outcomes c).length = c.n_reference.descFactorial c.n_selected := by
  simp only [possible_outcomes, List.length_map]
  rw [length_kperms _ _ (List.nodup_range _), List.length_range]

theorem possible_outcomes_row_length (c : TrialConfiguration)
    (h2 : c.n_selected ≤ c.n_reference) :
    ∀ o ∈ possible_outcomes c, o.length = c.n_reference := by
  intro o ho
  simp only [possible_outcomes, List.mem_map] at ho
  obtain ⟨sel, hsel, rfl⟩ := ho
  have hperm := kperms_append_perm c.n_selected (List.range c.n_reference)
    (List.nodup_range _) sel hsel
  rw [hperm.length_eq, List.length_range]

/-- C3: for every configuration with `1 ≤ n_select ≤ n_reference`,
`possible_outcomes` returns `n_reference!/(n_reference - n_select)!` rows,
each with `n_reference` columns. -/
theorem claim_C3 (c : TrialConfiguration) (h1 : 1 ≤ c.n_selected)
    (h2 : c.n_selected ≤ c.n_reference) :
    (possible_outcomes c).length =
      c.n_reference.factorial / (c.n_reference - c.n_selected).factorial ∧
    ∀ o ∈ possible_outcomes c, o.length = c.n_reference := by
  refine ⟨?_, possible_outcomes_row_length c h2⟩
  rw [possible_outcomes_length, Nat.descFactorial_eq_div h2]

/-- Witness for C3 at the configuration `(n_reference, n_select) = (4, 2)`:
the row count is `4!/2! = 12`. -/
theorem claim_C3_witness :
    (possible_outcomes ⟨4, 2, true⟩).length =
      Nat.factorial 4 / Nat.factorial 2 ∧ Nat.factorial 4 / Nat.factorial 2 = 12 :=
  ⟨(claim_C3 ⟨4, 2, true⟩ (by decide) (by decide)).1, by decide⟩

/-- C4: row 0 of `possible_outcomes` is the identity permutation
`(0, 1, ..., n_reference - 1)`; its selected positions hold
`(0, ..., n_select - 1)` and its unselected positions hold the remaining
indices in ascending order. -/
theorem claim_C4 (c : TrialConfiguration) (h1 : 1 ≤ c.n_selected)
    (h2 : c.n_selected ≤ c.n_reference) :
    (possible_outcomes c).head? = some (List.range c.n_reference) ∧
    List.range c.n_reference =
      List.range c.n_selected ++ (List.range c.n_reference).drop c.n_selected := by
  have hn := List.nodup_range c.n_reference
  have hlen : c.n_selected ≤ (List.range c.n_reference).length := by
    simpa using h2
  have htake : (List.range c.n_reference).take c.n_selected = List.range c.n_selected := by
    rw [List.take_range]
    congr 1
    exact min_eq_left h2
  constructor
  · simp only [possible_outcomes]
    rw [List.head?_map, head?_kperms _ _ hn hlen, Option.map_some']
    rw [remove_selected_take _ _ hn, List.take_append_drop]
  · conv_lhs => rw [← List.take_append_drop c.n_selected (List.range c.n_reference)]
    rw [htake]

/-- Witness for C4 at the configuration `(3, 2)`: the first outcome row is
`[0, 1, 2]`. -/
theorem claim_C4_witness :
    (possible_outcomes ⟨3, 2, true⟩).head? = some (List.range 3) ∧
    List.range 3 = [0, 1, 2] :=
  ⟨(claim_C4 ⟨3, 2, true⟩ (by decide) (by decide)).1, by decide⟩

/-- Closed form of the reverse-order loop of `Agent.probability`: starting
from the suffix sum at position `i`, the loop computes the product over
positions `0..i` of the permuted similarity divided by its suffix sum. -/
theorem luce_rev_closed (s_perm : List ℚ) :
    ∀ i : ℕ, i < s_perm.length → ∀ p : ℚ,
      luce_rev s_perm i ((s_perm.drop i).sum) p =
        p * ∏ j ∈ Finset.range (i + 1), s_perm.getD j 0 / (s_perm.drop j).sum := by
  intro i
  induction i with
  | zero =>
    intro _ p
    simp [luce_rev]
  | succ i ih =>
    intro hi p
    have hi' : i < s_perm.length := Nat.lt_of_succ_lt hi
    have hsum : (s_perm.drop (i + 1)).sum + s_perm.getD i 0 = (s_perm.drop i).sum := by
      rw [List.getD_eq_getElem s_perm 0 hi', List.drop_eq_getElem_cons hi', List.sum_cons]
      ring
    simp only [luce_rev]
    rw [hsum, Finset.prod_range_succ, ih hi' _]
    ring

/-- The per-outcome value of `Agent.probability` is the product form. -/
theorem outcome_prob_eq_prod_form (s : ℕ → ℚ) (k : ℕ) (outcome : List ℕ)
    (h1 : 1 ≤ k) (h2 : k ≤ outcome.length) :
    outcome_prob s k outcome = prod_form (outcome.map s) k := by
  have hlen : k - 1 < (outcome.map s).length := by
    rw [List.length_map]
    omega
  simp only [outcome_prob, prod_form]
  rw [luce_rev_closed _ (k - 1) hlen 1, one_mul]
  have hk : k - 1 + 1 = k := by omega
  rw [hk]

theorem prod_form_cons (x : ℚ) (rest : List ℚ) (k : ℕ) :
    prod_form (x :: rest) (k + 1) = x / (x :: rest).sum * prod_form rest k := by
  simp only [prod_form]
  rw [Finset.prod_range_succ']
  simp only [List.getD_cons_succ, List.drop_succ_cons, List.getD_cons_zero, List.drop_zero]
  ring

theorem sum_flatMap_rat {α : Type} (l : List α) (f : α → List ℚ) :
    (l.flatMap f).sum = (l.map (fun a => (f a).sum)).sum := by
  induction l with
  | nil => rfl
  | cons a l ih => simp [List.flatMap_cons, List.sum_append, ih]

/-- Total probability mass of sequential Luce choice: over all
`k`-permutation outcomes of a pool of reference slots with positive
similarities, the product-form probabilities sum to one. -/
theorem sum_outcomes_for :
    ∀ (k : ℕ) (avail : List ℕ) (s : ℕ → ℚ), avail.Nodup → (∀ a ∈ avail, 0 < s a) →
      k ≤ avail.length →
      ((outcomes_for avail k).map (fun o => prod_form (o.map s) k)).sum = 1 := by
  intro k
  induction k with
  | zero =>
    intro avail s _ _ _
    simp [outcomes_for, kperms, remove_selected_nil, prod_form]
  | succ k ih =>
    intro avail s hn hpos hk
    have havail : avail ≠ [] := by
      intro h
      rw [h] at hk
      exact absurd hk (by simp)
    have hT : (0 : ℚ) < (avail.map s).sum :=
      List.sum_pos _
        (fun x hx => by
          obtain ⟨a, ha, rfl⟩ := List.mem_map.mp hx
          exact hpos a ha)
        (by simpa using havail)
    have hunfold : outcomes_for avail (k + 1) =
        avail.flatMap (fun a =>
          (kperms k (avail.filter (fun x => x ≠ a))).map
            (fun p => a :: (p ++ remove_selected (avail.filter (fun x => x ≠ a)) p))) := by
      rw [outcomes_for, kperms, List.map_flatMap]
      congr 1
      funext a
      rw [List.map_map]
      congr 1
    rw [hunfold, List.map_flatMap, sum_flatMap_rat]
    have hinner : ∀ a ∈ avail,
        (((kperms k (avail.filter (fun x => x ≠ a))).map
            (fun p => a :: (p ++ remove_selected (avail.filter (fun x => x ≠ a)) p))).map
          (fun o => prod_form (o.map s) (k + 1))).sum = s a / (avail.map s).sum := by
      intro a ha
      have hn' : (avail.filter (fun x => x ≠ a)).Nodup := nodup_filter_ne hn a
      have hk' : k ≤ (avail.filter (fun x => x ≠ a)).length := by
        have := length_filter_ne hn ha
        omega
      rw [List.map_map]
      have hcong : ∀ p ∈ kperms k (avail.filter (fun x => x ≠ a)),
          ((fun o => prod_form (o.map s) (k + 1)) ∘
            (fun p => a :: (p ++ remove_selected (avail.filter (fun x => x ≠ a)) p))) p =
          s a / (avail.map s).sum *
            prod_form ((p ++ remove_selected (avail.filter (fun x => x ≠ a)) p).map s) k := by
        intro p hp
        have hperm := kperms_append_perm k (avail.filter (fun x => x ≠ a)) hn' p hp
        have hpc : ((a :: avail.filter (fun x => x ≠ a)).map s).sum = (avail.map s).sum :=
          ((perm_cons_filter_ne hn ha).map s).sum_eq
        have hsum_eq :
            (s a :: ((p ++ remove_selected (avail.filter (fun x => x ≠ a)) p).map s)).sum =
              (avail.map s).sum := by
          rw [List.sum_cons, (hperm.map s).sum_eq]
          simpa using hpc
        simp only [Function.comp_apply, List.map_cons]
        rw [prod_form_cons, hsum_eq]
      rw [List.map_congr_left hcong, List.sum_map_mul_left]
      have hIH := ih (avail.filter (fun x => x ≠ a)) s hn'
        (fun x hx => hpos x (List.mem_of_mem_filter hx)) hk'
      rw [outcomes_for, List.map_map] at hIH
      rw [show (fun p => prod_form
            ((p ++ remove_selected (avail.filter (fun x => x ≠ a)) p).map s) k) =
          ((fun o => prod_form (o.map s) k) ∘
            (fun sel => sel ++ remove_selected (avail.filter (fun x => x ≠ a)) sel)) from rfl]
      rw [hIH, mul_one]
    rw [List.map_congr_left hinner]
    have hdiv : avail.map (fun a => s a / (avail.map s).sum) =
        avail.map (fun a => s a * ((avail.map s).sum)⁻¹) := by
      simp [div_eq_mul_inv]
    rw [hdiv, List.sum_map_mul_right]
    exact mul_inv_cancel₀ (ne_of_gt hT)

theorem probability_getD (sim : ℤ → ℤ → ℚ) (d : Docket) (t : ℕ)
    (ht : t < d.stimulus_set.length) :
    (Agent.probability sim d).getD t [] = normalize_row (trial_prob_raw sim d t) := by
  have hlen : t < ((List.range d.stimulus_set.length).map
      (fun t => normalize_row (trial_prob_raw sim d t))).length := by
    simpa using ht
  rw [Agent.probability, List.getD_eq_getElem _ _ hlen, List.getElem_map, List.getElem_range]

theorem trial_prob_raw_split (sim : ℤ → ℤ → ℚ) (d : Docket) (t : ℕ) :
    trial_prob_raw sim d t =
      (possible_outcomes (trial_config d t)).map
        (outcome_prob (s_qref sim (d.stimulus_set.getD t [])) (trial_config d t).n_selected)
      ++ List.replicate
          (max_n_outcome d - (possible_outcomes (trial_config d t)).length) 0 := rfl

theorem trial_config_mem (d : Docket) (t : ℕ)
    (hid : d.config_id.getD t 0 < d.config_list.length) :
    trial_config d t ∈ d.config_list := by
  rw [trial_config, List.getD_eq_getElem _ _ hid]
  exact List.getElem_mem _

/-- The probability part of one trial's raw row sums to one when every
similarity score is positive and the trial's configuration is valid. -/
theorem trial_prob_sum_one (sim : ℤ → ℤ → ℚ) (d : Docket) (t : ℕ)
    (hpos : ∀ a b, 0 < sim a b)
    (hk1 : 1 ≤ (trial_config d t).n_selected)
    (hk2 : (trial_config d t).n_selected ≤ (trial_config d t).n_reference) :
    ((possible_outcomes (trial_config d t)).map
      (outcome_prob (s_qref sim (d.stimulus_set.getD t []))
        (trial_config d t).n_selected)).sum = 1 := by
  have hP : (possible_outcomes (trial_config d t)).map
      (outcome_prob (s_qref sim (d.stimulus_set.getD t [])) (trial_config d t).n_selected) =
      (outcomes_for (List.range (trial_config d t).n_reference)
          (trial_config d t).n_selected).map
        (fun o => prod_form (o.map (s_qref sim (d.stimulus_set.getD t [])))
          (trial_config d t).n_selected) := by
    rw [show possible_outcomes (trial_config d t) =
        outcomes_for (List.range (trial_config d t).n_reference)
          (trial_config d t).n_selected from rfl]
    apply List.map_congr_left
    intro o ho
    simp only [outcomes_for, List.mem_map] at ho
    obtain ⟨sel, hsel, rfl⟩ := ho
    have hperm := kperms_append_perm (trial_config d t).n_selected
      (List.range (trial_config d t).n_reference) (List.nodup_range _) sel hsel
    have hlen : (sel ++ remove_selected (List.range (trial_config d t).n_reference) sel).length =
        (trial_config d t).n_reference := by
      rw [hperm.length_eq, List.length_range]
    exact outcome_prob_eq_prod_form _ _ _ hk1 (le_of_le_of_eq hk2 hlen.symm)
  rw [hP]
  exact sum_outcomes_for _ _ _ (List.nodup_range _) (fun a _ => hpos _ _) (by simpa using hk2)

/-- C2: for every trial of a valid container with positive similarity
scores, the probability-matrix row restricted to the first `n_outcome`
columns of the trial's configuration sums to one, both before (the raw
matrix `trial_prob_raw`) and after (the returned `Agent.probability`
matrix) the final row normalization. -/
theorem claim_C2 (sim : ℤ → ℤ → ℚ) (d : Docket)
    (hpos : ∀ a b, 0 < sim a b)
    (hvalid : ∀ c ∈ d.config_list, 1 ≤ c.n_selected ∧ c.n_selected ≤ c.n_reference)
    (t : ℕ) (ht : t < d.stimulus_set.length)
    (hid : d.config_id.getD t 0 < d.config_list.length) :
    ((trial_prob_raw sim d t).take (possible_outcomes (trial_config d t)).length).sum = 1 ∧
    (((Agent.probability sim d).getD t []).take
      (possible_outcomes (trial_config d t)).length).sum = 1 := by
  obtain ⟨hk1, hk2⟩ := hvalid _ (trial_config_mem d t hid)
  have hPsum := trial_prob_sum_one sim d t hpos hk1 hk2
  have htake : (trial_prob_raw sim d t).take (possible_outcomes (trial_config d t)).length =
      (possible_outcomes (trial_config d t)).map
        (outcome_prob (s_qref sim (d.stimulus_set.getD t []))
          (trial_config d t).n_selected) := by
    rw [trial_prob_raw_split]
    rw [show (possible_outcomes (trial_config d t)).length =
        ((possible_outcomes (trial_config d t)).map
          (outcome_prob (s_qref sim (d.stimulus_set.getD t []))
            (trial_config d t).n_selected)).length from (List.length_map _ _).symm]
    exact List.take_left _ _
  have hraw_sum : (trial_prob_raw sim d t).sum = 1 := by
    rw [trial_prob_raw_split, List.sum_append, List.sum_replicate, smul_zero, add_zero, hPsum]
  refine ⟨by rw [htake, hPsum], ?_⟩
  rw [probability_getD sim d t ht]
  have hnorm : normalize_row (trial_prob_raw sim d t) = trial_prob_raw sim d t := by
    rw [normalize_row, hraw_sum]
    simp
  rw [hnorm, htake, hPsum]

/-- Witness for C2: a one-trial docket with configuration `(2, 1)` and the
constant similarity function 1. -/
theorem claim_C2_witness :
    ((trial_prob_raw (fun _ _ => (1 : ℚ)) ⟨[[5, 3, 4]], [⟨2, 1, true⟩], [0]⟩ 0).take
      (possible_outcomes
        (trial_config ⟨[[5, 3, 4]], [⟨2, 1, true⟩], [0]⟩ 0)).length).sum = 1 ∧
    (((Agent.probability (fun _ _ => (1 : ℚ)) ⟨[[5, 3, 4]], [⟨2, 1, true⟩], [0]⟩).getD 0 []).take
      (possible_outcomes
        (trial_config ⟨[[5, 3, 4]], [⟨2, 1, true⟩], [0]⟩ 0)).length).sum = 1 :=
  claim_C2 (fun _ _ => (1 : ℚ)) ⟨[[5, 3, 4]], [⟨2, 1, true⟩], [0]⟩
    (fun _ _ => one_pos) (by decide) 0 (by decide) (by decide)

theorem possible_outcomes_two_one (c : TrialConfiguration)
    (h2 : c.n_reference = 2) (h1 : c.n_selected = 1) :
    possible_outcomes c = [[0, 1], [1, 0]] := by
  simp only [possible_outcomes, h2, h1]
  rfl

theorem outcome_prob_first (s : ℕ → ℚ) :
    outcome_prob s 1 [0, 1] = s 0 / (s 0 + s 1) := by
  simp only [outcome_prob, Nat.sub_self, List.map_cons, List.map_nil, List.drop_zero,
    luce_rev, List.sum_cons, List.sum_nil, List.getD_cons_zero]
  ring

theorem outcome_prob_second (s : ℕ → ℚ) :
    outcome_prob s 1 [1, 0] = s 1 / (s 0 + s 1) := by
  simp only [outcome_prob, Nat.sub_self, List.map_cons, List.map_nil, List.drop_zero,
    luce_rev, List.sum_cons, List.sum_nil, List.getD_cons_zero]
  ring

theorem foldr_max_const (l : List ℕ) (c : ℕ) (hne : l ≠ [])
    (hall : ∀ x ∈ l, x = c) : l.foldr max 0 = c := by
  induction l with
  | nil => exact absurd rfl hne
  | cons x xs ih =>
    cases xs with
    | nil =>
      simp only [List.foldr]
      rw [hall x (by simp)]
      exact Nat.max_eq_left (Nat.zero_le c)
    | cons y ys =>
      simp only [List.foldr] at ih ⊢
      rw [ih (by simp) (fun z hz => hall z (List.mem_cons_of_mem x hz)), hall x (by simp)]
      exact Nat.max_self c

/-- C1: on a docket whose configurations all have `n_reference = 2` and
`n_select = 1`, `Agent.probability` enumerates exactly 2 outcomes per
configuration, outcome 1 selects the reference in column 1, and its
probability is `similarity(query, ref1) / (similarity(query, ref0) +
similarity(query, ref1))`. -/
theorem claim_C1 (sim : ℤ → ℤ → ℚ) (d : Docket)
    (hpos : ∀ a b, 0 < sim a b)
    (hcfg : ∀ c ∈ d.config_list, c.n_reference = 2 ∧ c.n_selected = 1)
    (t : ℕ) (ht : t < d.stimulus_set.length)
    (hid : d.config_id.getD t 0 < d.config_list.length) :
    (possible_outcomes (trial_config d t)).length = 2 ∧
    (possible_outcomes (trial_config d t)).getD 1 [] = [1, 0] ∧
    ((Agent.probability sim d).getD t []).getD 1 0 =
      sim ((d.stimulus_set.getD t []).getD 0 0) ((d.stimulus_set.getD t []).getD 2 0) /
        (sim ((d.stimulus_set.getD t []).getD 0 0) ((d.stimulus_set.getD t []).getD 1 0) +
          sim ((d.stimulus_set.getD t []).getD 0 0) ((d.stimulus_set.getD t []).getD 2 0)) := by
  obtain ⟨h2, h1⟩ := hcfg _ (trial_config_mem d t hid)
  have hpo := possible_outcomes_two_one _ h2 h1
  have hmax : max_n_outcome d = 2 := by
    rw [max_n_outcome]
    apply foldr_max_const
    · simp only [ne_eq, List.map_eq_nil_iff]
      intro h
      rw [h] at hid
      simp at hid
    · intro x hx
      obtain ⟨c', hc', rfl⟩ := List.mem_map.mp hx
      obtain ⟨h2', h1'⟩ := hcfg c' hc'
      rw [possible_outcomes_two_one c' h2' h1']
      rfl
  have hraw : trial_prob_raw sim d t =
      [s_qref sim (d.stimulus_set.getD t []) 0 /
          (s_qref sim (d.stimulus_set.getD t []) 0 + s_qref sim (d.stimulus_set.getD t []) 1),
        s_qref sim (d.stimulus_set.getD t []) 1 /
          (s_qref sim (d.stimulus_set.getD t []) 0 + s_qref sim (d.stimulus_set.getD t []) 1)] := by
    rw [trial_prob_raw_split, hpo, hmax, h1]
    simp only [List.map_cons, List.map_nil, List.length_cons, List.length_nil]
    rw [outcome_prob_first, outcome_prob_second]
    rfl
  have h01 : 0 < s_qref sim (d.stimulus_set.getD t []) 0 := hpos _ _
  have h11 : 0 < s_qref sim (d.stimulus_set.getD t []) 1 := hpos _ _
  have hs : s_qref sim (d.stimulus_set.getD t []) 0 +
      s_qref sim (d.stimulus_set.getD t []) 1 ≠ 0 := ne_of_gt (add_pos h01 h11)
  refine ⟨by rw [hpo]; rfl, by rw [hpo]; rfl, ?_⟩
  rw [probability_getD sim d t ht, hraw, normalize_row]
  simp only [List.map_cons, List.map_nil, List.sum_cons, List.sum_nil,
    List.getD_cons_succ, List.getD_cons_zero]
  have hab : s_qref sim (d.stimulus_set.getD t []) 0 /
        (s_qref sim (d.stimulus_set.getD t []) 0 + s_qref sim (d.stimulus_set.getD t []) 1) +
      (s_qref sim (d.stimulus_set.getD t []) 1 /
        (s_qref sim (d.stimulus_set.getD t []) 0 + s_qref sim (d.stimulus_set.getD t []) 1) +
        0) = 1 := by
    rw [add_zero, div_add_div_same, div_self hs]
  rw [hab, div_one]
  rfl

/-- Witness for C1: the same one-trial `(2, 1)` docket with constant
similarity 1; outcome 1 is `[1, 0]` and its probability is `1 / (1 + 1)`. -/
theorem claim_C1_witness :
    (possible_outcomes (trial_config ⟨[[5, 3, 4]], [⟨2, 1, true⟩], [0]⟩ 0)).length = 2 ∧
    (possible_outcomes (trial_config ⟨[[5, 3, 4]], [⟨2, 1, true⟩], [0]⟩ 0)).getD 1 [] = [1, 0] ∧
    ((Agent.probability (fun _ _ => (1 : ℚ)) ⟨[[5, 3, 4]], [⟨2, 1, true⟩], [0]⟩).getD 0 []).getD
        1 0 = (1 : ℚ) / (1 + 1) :=
  claim_C1 (fun _ _ => (1 : ℚ)) ⟨[[5, 3, 4]], [⟨2, 1, true⟩], [0]⟩
    (fun _ _ => one_pos) (by decide) 0 (by decide) (by decide)

theorem getD_map {α β : Type} (f : α → β) (l : List α) (i : ℕ) (hi : i < l.length)
    (da : α) (db : β) : (l.map f).getD i db = f (l.getD i da) := by
  rw [List.getD_eq_getElem _ _ (by simpa using hi), List.getD_eq_getElem _ _ hi,
    List.getElem_map]

/-- C6 (evidence for the code bug): constructing from a 3-column stimulus
set stores rows padded with 0 in the six added reference slots, not with the
sentinel -1 that the documentation, the repository's own Todo note
("pad with -1 not zero") and its tests prescribe. -/
theorem claim_C6_zero_padding :
    (SimilarityTrials.init [[0, 1, 2]] none none none).stimulus_set =
      [[0, 1, 2, 0, 0, 0, 0, 0, 0]] ∧
    (SimilarityTrials.init [[0, 1, 2]] none none none).stimulus_set ≠
      [[0, 1, 2, -1, -1, -1, -1, -1, -1]] := by decide

/-- C7 (evidence for the code bug): construction is total and performs no
validation.  A trial with `n_select = 5 > n_reference = 2` is stored as is
(no `InvalidTrialError` exists in the source), and a row carrying only 2
non-sentinel references with a declared `n_reference = 4` also constructs a
container. -/
theorem claim_C7_no_validation :
    (SimilarityTrials.init [[0, 1, 2]] (some [5]) none none).n_selected = [5] ∧
    (SimilarityTrials.init [[0, 1, 2]] (some [5]) none none).n_reference = [2] ∧
    (SimilarityTrials.init [[0, 1, 2]] (some [5]) none none).warned_n_selected = false ∧
    (SimilarityTrials.init [[3, 4, 5, -1, -1]] none none (some [4])).n_reference = [4] ∧
    (SimilarityTrials.init [[3, 4, 5, -1, -1]] none none (some [4])).stimulus_set =
      [[3, 4, 5, -1, -1, 0, 0, 0, 0]] := by decide

theorem clamp_n_selected_getD {ns : List ℤ} {i : ℕ} (hi : i < ns.length)
    (hbad : ns.getD i 0 < 1) : (clamp_n_selected ns).getD i 0 = 1 := by
  rw [clamp_n_selected, getD_map _ _ i hi 0 0, if_pos hbad]

theorem clamp_group_id_getD {g : List ℤ} {j : ℕ} (hj : j < g.length)
    (hbad : g.getD j 0 < 0) : (clamp_group_id g).getD j 0 = 0 := by
  rw [clamp_group_id, getD_map _ _ j hj 0 0, if_pos hbad]

/-- C8: when `n_selected` holds a value below 1 (or `group_id` a negative
value), construction overwrites that entry with 1 (respectively 0) in the
caller's own array — the post-state of the argument differs from its
pre-state — and a warning is surfaced. -/
theorem claim_C8_in_place_clamp (ss ss2 : List (List ℤ)) (ns g : List ℤ)
    (ir nr : Option (List Bool) × Option (List ℤ))
    (ns2 : Option (List ℤ)) (ir2 : Option (List Bool)) (nr2 : Option (List ℤ))
    (i : ℕ) (hi : i < ns.length) (hbad : ns.getD i 0 < 1)
    (j : ℕ) (hj : j < g.length) (hbadg : g.getD j 0 < 0) :
    ((SimilarityTrials.init ss (some ns) ir.1 nr.2).n_selected.getD i 0 = 1 ∧
      (SimilarityTrials.init ss (some ns) ir.1 nr.2).n_selected ≠ ns ∧
      (SimilarityTrials.init ss (some ns) ir.1 nr.2).warned_n_selected = true) ∧
    ((JudgedTrials.init ss2 ns2 ir2 (some g) nr2).group_id.getD j 0 = 0 ∧
      (JudgedTrials.init ss2 ns2 ir2 (some g) nr2).group_id ≠ g ∧
      (JudgedTrials.init ss2 ns2 ir2 (some g) nr2).warned_group_id = true) := by
  have hns : (SimilarityTrials.init ss (some ns) ir.1 nr.2).n_selected =
      clamp_n_selected ns := rfl
  have hg : (JudgedTrials.init ss2 ns2 ir2 (some g) nr2).group_id = clamp_group_id g := rfl
  refine ⟨⟨?_, ?_, ?_⟩, ?_, ?_, ?_⟩
  · rw [hns]
    exact clamp_n_selected_getD hi hbad
  · rw [hns]
    intro heq
    have hcong := congrArg (fun l => l.getD i 0) heq
    simp only at hcong
    rw [clamp_n_selected_getD hi hbad] at hcong
    omega
  · have hwa : (SimilarityTrials.init ss (some ns) ir.1 nr.2).warned_n_selected =
        ns.any (fun x => x < 1) := rfl
    rw [hwa, List.any_eq_true]
    refine ⟨ns.getD i 0, ?_, by simpa using hbad⟩
    rw [List.getD_eq_getElem _ _ hi]
    exact List.getElem_mem _
  · rw [hg]
    exact clamp_group_id_getD hj hbadg
  · rw [hg]
    intro heq
    have hcong := congrArg (fun l => l.getD j 0) heq
    simp only at hcong
    rw [clamp_group_id_getD hj hbadg] at hcong
    omega
  · have hwg : (JudgedTrials.init ss2 ns2 ir2 (some g) nr2).warned_group_id =
        g.any (fun x => x < 0) := rfl
    rw [hwg, List.any_eq_true]
    refine ⟨g.getD j 0, ?_, by simpa using hbadg⟩
    rw [List.getD_eq_getElem _ _ hj]
    exact List.getElem_mem _

/-- Witness for C8: `n_selected = [0]` becomes `[1]` in place with a
warning; `group_id = [-2]` becomes `[0]` in place with a warning. -/
theorem claim_C8_witness :
    ((SimilarityTrials.init [[0, 1, 2]] (some [0]) none none).n_selected.getD 0 0 = 1 ∧
      (SimilarityTrials.init [[0, 1, 2]] (some [0]) none none).n_selected ≠ [0] ∧
      (SimilarityTrials.init [[0, 1, 2]] (some [0]) none none).warned_n_selected = true) ∧
    ((JudgedTrials.init [[0, 1, 2]] none none (some [-2]) none).group_id.getD 0 0 = 0 ∧
      (JudgedTrials.init [[0, 1, 2]] none none (some [-2]) none).group_id ≠ [-2] ∧
      (JudgedTrials.init [[0, 1, 2]] none none (some [-2]) none).warned_group_id = true) :=
  claim_C8_in_place_clamp [[0, 1, 2]] [[0, 1, 2]] [0] [-2] ⟨none, none⟩ ⟨none, none⟩
    none none none 0 (by decide) (by decide) 0 (by decide) (by decide)

/-- C9: `subset` rebuilds the container from the already zero-padded rows
without passing `n_reference`, and `_infer_n_reference` counts only strictly
negative entries as placeholders; hence any selected trial whose padded row
has no negative entry is assigned `n_reference = padded width - 1 = 8`,
regardless of its original `n_reference`. -/
theorem claim_C9_subset_inference (ss : List (List ℤ)) (ns : Option (List ℤ))
    (ir : Option (List Bool)) (nr : Option (List ℤ)) (index : List ℕ) (w : ℕ)
    (hw : ∀ row ∈ ss, row.length = w) (hwle : w ≤ max_n_reference)
    (j : ℕ) (hj : j < index.length)
    (hidx : ∀ i ∈ index, i < ss.length)
    (hnoneg : ∀ x ∈ (UnjudgedTrials.init ss ns ir nr).stimulus_set.getD (index.getD j 0) [],
      0 ≤ x) :
    (UnjudgedTrials.subset (UnjudgedTrials.init ss ns ir nr) index).n_reference.getD j 0 =
      (max_n_reference : ℤ) - 1 := by
  have hss : (UnjudgedTrials.init ss ns ir nr).stimulus_set = pad_stimulus_set ss := rfl
  rw [hss] at hnoneg
  have hj0mem : index.getD j 0 ∈ index := by
    rw [List.getD_eq_getElem _ _ hj]
    exact List.getElem_mem _
  have hpos0 : index.getD j 0 < ss.length := hidx _ hj0mem
  obtain ⟨r0, rest, rfl⟩ : ∃ r0 rest, ss = r0 :: rest := by
    cases ss with
    | nil => simp at hpos0
    | cons r0 rest => exact ⟨r0, rest, rfl⟩
  obtain ⟨i0, irest, rfl⟩ : ∃ i0 irest, index = i0 :: irest := by
    cases index with
    | nil => simp at hj
    | cons i0 irest => exact ⟨i0, irest, rfl⟩
  have hpadlen2 : (pad_stimulus_set (r0 :: rest)).length = (r0 :: rest).length := by
    simp [pad_stimulus_set]
  have hpadlen : ∀ r ∈ pad_stimulus_set (r0 :: rest), r.length = max_n_reference := by
    intro r hr
    simp only [pad_stimulus_set, List.mem_map] at hr
    obtain ⟨row, hrow, rfl⟩ := hr
    have hr0 : (r0 :: rest).headD [] = r0 := rfl
    rw [List.length_append, List.length_replicate, hw row hrow, hr0, hw r0 (by simp)]
    omega
  have hsub : (UnjudgedTrials.subset (UnjudgedTrials.init (r0 :: rest) ns ir nr)
      (i0 :: irest)).n_reference =
      infer_n_reference ((i0 :: irest).map
        (fun i => (pad_stimulus_set (r0 :: rest)).getD i [])) := rfl
  rw [hsub]
  have hj' : j < ((i0 :: irest).map
      (fun i => (pad_stimulus_set (r0 :: rest)).getD i [])).length := by
    simpa using hj
  simp only [infer_n_reference]
  rw [getD_map _ _ j hj' [] 0, getD_map _ _ j hj 0 []]
  have hheadlen : ((((i0 :: irest).map
      (fun i => (pad_stimulus_set (r0 :: rest)).getD i [])).headD []).length : ℤ) =
      (max_n_reference : ℤ) := by
    have hi0 : i0 < (pad_stimulus_set (r0 :: rest)).length := by
      rw [hpadlen2]
      exact hidx i0 (by simp)
    have hhd : ((i0 :: irest).map
        (fun i => (pad_stimulus_set (r0 :: rest)).getD i [])).headD [] =
        (pad_stimulus_set (r0 :: rest)).getD i0 [] := rfl
    rw [hhd, List.getD_eq_getElem _ _ hi0]
    exact_mod_cast congrArg Nat.cast (hpadlen _ (List.getElem_mem _))
  have hcount : (((pad_stimulus_set (r0 :: rest)).getD ((i0 :: irest).getD j 0) []).countP
      (fun x => x < 0)) = 0 := by
    rw [List.countP_eq_zero]
    intro x hx
    simpa using not_lt.mpr (hnoneg x hx)
  rw [hcount, hheadlen]
  simp

/-- Witness for C9: a trial constructed with an explicit `n_reference = 2`
and a 3-column stimulus set; after `subset`, the rebuilt container infers
`n_reference = 8` from the zero-padded row. -/
theorem claim_C9_witness :
    (UnjudgedTrials.subset (UnjudgedTrials.init [[5, 7, 9]] none none (some [2])) [0]).n_reference.getD 0 0 =
      (max_n_reference : ℤ) - 1 ∧
    (UnjudgedTrials.subset (UnjudgedTrials.init [[5, 7, 9]] none none (some [2])) [0]).n_reference.getD 0 0 ≠
      (UnjudgedTrials.init [[5, 7, 9]] none none (some [2])).n_reference.getD 0 0 :=
  ⟨claim_C9_subset_inference [[5, 7, 9]] none none (some [2]) [0] 3 (by decide) (by decide)
      0 (by decide) (by decide) (by decide),
    by decide⟩

/-- C10: every row of the stimulus matrix built by
`RandomGenerator.generate` holds `n_reference + 1` mutually distinct
stimulus indices in `[0, n_stimuli)`, with the reference columns (columns 1
onward) sorted ascending, given the contract of
`np.random.choice(n_stimuli, (1, n_reference + 1), False)`. -/
theorem claim_C10_generate_rows (n_stimuli n_trial n_reference : ℕ) (draw : ℕ → List ℤ)
    (hdraw : ∀ t, t < n_trial → (draw t).length = n_reference + 1 ∧ (draw t).Nodup ∧
      ∀ x ∈ draw t, 0 ≤ x ∧ x < (n_stimuli : ℤ))
    (t : ℕ) (ht : t < n_trial) :
    ((RandomGenerator.stimulus_matrix n_trial draw).getD t []).length = n_reference + 1 ∧
    ((RandomGenerator.stimulus_matrix n_trial draw).getD t []).Nodup ∧
    (∀ x ∈ (RandomGenerator.stimulus_matrix n_trial draw).getD t [],
      0 ≤ x ∧ x < (n_stimuli : ℤ)) ∧
    List.Sorted (fun x y => x ≤ y)
      ((RandomGenerator.stimulus_matrix n_trial draw).getD t []).tail := by
  obtain ⟨hlen, hnd, hrange⟩ := hdraw t ht
  have hrow : (RandomGenerator.stimulus_matrix n_trial draw).getD t [] =
      (draw t).headD 0 :: List.insertionSort (fun x y => x ≤ y) (draw t).tail := by
    rw [RandomGenerator.stimulus_matrix, getD_map _ _ t (by simpa using ht) 0 [],
      List.getD_eq_getElem _ _ (by simpa using ht), List.getElem_range]
  obtain ⟨h0, tl, hdt⟩ : ∃ h0 tl, draw t = h0 :: tl := by
    cases hdt : draw t with
    | nil => rw [hdt] at hlen; simp at hlen
    | cons h0 tl => exact ⟨h0, tl, rfl⟩
  rw [hdt] at hrow hlen hnd hrange
  simp only [List.headD_cons, List.tail_cons] at hrow
  have hperm : (List.insertionSort (fun x y => x ≤ y) tl).Perm tl :=
    List.perm_insertionSort _ tl
  have hnotmem : h0 ∉ List.insertionSort (fun x y => x ≤ y) tl := fun hmem =>
    (List.nodup_cons.mp hnd).1 (hperm.mem_iff.mp hmem)
  refine ⟨?_, ?_, ?_, ?_⟩
  · rw [hrow, List.length_cons, List.length_insertionSort]
    simpa using hlen
  · rw [hrow, List.nodup_cons]
    exact ⟨hnotmem, hperm.nodup_iff.mpr (List.nodup_cons.mp hnd).2⟩
  · intro x hx
    rw [hrow, List.mem_cons] at hx
    rcases hx with rfl | hx
    · exact hrange _ (by simp)
    · exact hrange _ (List.mem_cons_of_mem _ (hperm.mem_iff.mp hx))
  · rw [hrow, List.tail_cons]
    exact List.sorted_insertionSort _ tl

/-- Witness for C10: one trial drawn as `[5, 9, 3]` from 10 stimuli with 2
references; the produced row has 3 entries, is duplicate free, and its
reference columns are sorted. -/
theorem claim_C10_witness :
    ((RandomGenerator.stimulus_matrix 1 (fun _ => [5, 9, 3])).getD 0 []).length = 2 + 1 ∧
    ((RandomGenerator.stimulus_matrix 1 (fun _ => [5, 9, 3])).getD 0 []).Nodup ∧
    List.Sorted (fun x y => x ≤ y)
      ((RandomGenerator.stimulus_matrix 1 (fun _ => [5, 9, 3])).getD 0 []).tail :=
  have h := claim_C10_generate_rows 10 1 2 (fun _ => [5, 9, 3]) (by decide) 0 (by decide)
  ⟨h.1, h.2.1, h.2.2.2⟩

theorem mem_first_dedup_step {α : Type} [DecidableEq α] (acc : List α) (a x : α) :
    x ∈ (if a ∈ acc then acc else acc ++ [a]) ↔ x ∈ acc ∨ x = a := by
  by_cases h : a ∈ acc
  · simp only [if_pos h]
    constructor
    · exact Or.inl
    · rintro (hx | rfl)
      · exact hx
      · exact h
  · simp [if_neg h]

theorem mem_dedup_foldl {α : Type} [DecidableEq α] :
    ∀ (l acc : List α) (x : α),
      x ∈ l.foldl (fun acc x => if x ∈ acc then acc else acc ++ [x]) acc ↔
        x ∈ acc ∨ x ∈ l := by
  intro l
  induction l with
  | nil =>
    intro acc x
    simp
  | cons a l ih =>
    intro acc x
    rw [List.foldl_cons, ih, mem_first_dedup_step]
    constructor
    · rintro ((hx | rfl) | hx)
      · exact Or.inl hx
      · exact Or.inr (by simp)
      · exact Or.inr (by simp [hx])
    · rintro (hx | hx)
      · exact Or.inl (Or.inl hx)
      · rcases List.mem_cons.mp hx with rfl | hx
        · exact Or.inl (Or.inr rfl)
        · exact Or.inr hx

theorem mem_first_dedup {α : Type} [DecidableEq α] (l : List α) (x : α) :
    x ∈ first_dedup l ↔ x ∈ l := by
  rw [first_dedup, mem_dedup_foldl]
  simp

theorem foldl_dedup_no_new {α : Type} [DecidableEq α] :
    ∀ (ys acc : List α), (∀ y ∈ ys, y ∈ acc) →
      ys.foldl (fun acc x => if x ∈ acc then acc else acc ++ [x]) acc = acc := by
  intro ys
  induction ys with
  | nil =>
    intro acc _
    rfl
  | cons y ys ih =>
    intro acc h
    rw [List.foldl_cons, if_pos (h y (by simp))]
    exact ih acc (fun z hz => h z (by simp [hz]))

/-- Stacking adds no new configuration row when every configuration of the
second container already appears in the first container's table. -/
theorem first_dedup_append_subset {α : Type} [DecidableEq α] (xs ys : List α)
    (h : ∀ y ∈ ys, y ∈ first_dedup xs) :
    first_dedup (xs ++ ys) = first_dedup xs := by
  rw [first_dedup, first_dedup, List.foldl_append]
  exact foldl_dedup_no_new ys _ h

theorem clamp_n_selected_id {l : List ℤ} (h : ∀ x ∈ l, 1 ≤ x) :
    clamp_n_selected l = l := by
  induction l with
  | nil => rfl
  | cons a l ih =>
    simp only [clamp_n_selected, List.map_cons] at ih ⊢
    rw [if_neg (not_lt.mpr (h a (by simp))), ih (fun x hx => h x (by simp [hx]))]

theorem config_meta_append {nr1 ns1 : List ℤ} {ir1 : List Bool} (nr2 ns2 : List ℤ)
    (ir2 : List Bool) (h1 : nr1.length = ns1.length) (h2 : ns1.length = ir1.length) :
    config_meta (nr1 ++ nr2) (ns1 ++ ns2) (ir1 ++ ir2) =
      config_meta nr1 ns1 ir1 ++ config_meta nr2 ns2 ir2 := by
  simp only [config_meta]
  rw [List.zip_append h2,
    List.zip_append (by rw [List.length_zip, ← h2, Nat.min_self]; exact h1)]

/-- C5 counterexample: stacking a container with itself (identical
configuration sets) does not offset the second half's configuration
indices; the recomputation collapses the duplicate configurations, giving
`[0, 1, 0, 1]` rather than `[0, 1, 2, 3]`. -/
theorem claim_C5_counterexample :
    (UnjudgedTrials.stack
        [UnjudgedTrials.init [[0, 1, 2], [3, 4, 5]] (some [1, 2]) none none,
          UnjudgedTrials.init [[0, 1, 2], [3, 4, 5]] (some [1, 2]) none none]).config_id =
      [0, 1, 0, 1] ∧
    ¬ ((UnjudgedTrials.stack
        [UnjudgedTrials.init [[0, 1, 2], [3, 4, 5]] (some [1, 2]) none none,
          UnjudgedTrials.init [[0, 1, 2], [3, 4, 5]] (some [1, 2]) none none]).config_id =
      (UnjudgedTrials.init [[0, 1, 2], [3, 4, 5]] (some [1, 2]) none none).config_id ++
        (UnjudgedTrials.init [[0, 1, 2], [3, 4, 5]] (some [1, 2]) none none).config_id.map
          (fun i => i + (UnjudgedTrials.init [[0, 1, 2], [3, 4, 5]]
            (some [1, 2]) none none).config_list.length)) := by
  decide

theorem generate_configuration_id_append_snd {α : Type} [DecidableEq α] (ma mb : List α)
    (h : first_dedup ma = first_dedup mb) :
    (generate_configuration_id (ma ++ mb)).2 =
      (generate_configuration_id ma).2 ++ (generate_configuration_id mb).2 := by
  have hsub : ∀ y ∈ mb, y ∈ first_dedup ma := fun y hy => by
    rw [h]
    exact (mem_first_dedup _ _).mpr hy
  simp only [generate_configuration_id]
  rw [first_dedup_append_subset _ _ hsub, List.map_append, h]

/-- C5 (amended): for two well-formed containers with identical
configuration tables, `stack` returns a container whose config index array
is the first container's indices followed by the second container's indices
unchanged — the duplicate configurations collapse, so no offset is
applied. -/
theorem claim_C5_amended (a b : UnjudgedTrialsState) (ha : a.wf) (hb : b.wf)
    (htab : a.config_list = b.config_list) :
    (UnjudgedTrials.stack [a, b]).config_id = a.config_id ++ b.config_id := by
  obtain ⟨ha1, ha2, ha3, ha4, ha5⟩ := ha
  obtain ⟨hb1, hb2, hb3, hb4, hb5⟩ := hb
  have hclamp : clamp_n_selected (a.n_selected ++ b.n_selected) =
      a.n_selected ++ b.n_selected :=
    clamp_n_selected_id (fun x hx => by
      rcases List.mem_append.mp hx with h | h
      · exact ha3 x h
      · exact hb3 x h)
  have hstack : (UnjudgedTrials.stack [a, b]).config_id =
      (generate_configuration_id (config_meta (a.n_reference ++ b.n_reference)
        (clamp_n_selected (a.n_selected ++ b.n_selected))
        (a.is_ranked ++ b.is_ranked))).2 := rfl
  have hfd : first_dedup (config_meta a.n_reference a.n_selected a.is_ranked) =
      first_dedup (config_meta b.n_reference b.n_selected b.is_ranked) := by
    have e1 : a.config_list =
        first_dedup (config_meta a.n_reference a.n_selected a.is_ranked) := ha4
    have e2 : b.config_list =
        first_dedup (config_meta b.n_reference b.n_selected b.is_ranked) := hb4
    rw [← e1, ← e2, htab]
  rw [hstack, hclamp, config_meta_append _ _ _ ha1 ha2,
    generate_configuration_id_append_snd _ _ hfd]
  congr 1
  · exact ha5.symm
  · exact hb5.symm

/-- Witness for the amended C5: the container of the counterexample stacked
with itself yields `[0, 1] ++ [0, 1]`. -/
theorem claim_C5_witness :
    (UnjudgedTrials.stack
        [UnjudgedTrials.init [[0, 1, 2], [3, 4, 5]] (some [1, 2]) none none,
          UnjudgedTrials.init [[0, 1, 2], [3, 4, 5]] (some [1, 2]) none none]).config_id =
      (UnjudgedTrials.init [[0, 1, 2], [3, 4, 5]] (some [1, 2]) none none).config_id ++
        (UnjudgedTrials.init [[0, 1, 2], [3, 4, 5]] (some [1, 2]) none none).config_id :=
  claim_C5_amended _ _ (by decide) (by decide) rfl

end Psiz
